import Mathlib

/-!
Verification of the metadata-extraction and parameter-parsing pipeline of
ComfyUI_PNGInfo_Sidebar.

The development shallowly embeds the two source files:
* the Forge annotation reader (class `ForgeUI`, file `read_prompt_forge.js`):
  line splitting, the "Negative prompt:" split, the style-reference
  (`/<[^>]+>/g`) extraction, and `parseParameters` (the settings-line
  tokenizer);
* `ImageUploader.js`: `parceMetadata` (the Forge/Comfy dispatch and the
  fallback `Error` entry), `readEXIFMetadata` (the JPEG segment scan) and the
  TIFF directory reader (`readTags`, `readTagValue`, `getStringFromDB`).

Text is modelled as `List Char` and byte buffers as `List Nat`.  JavaScript
`DataView` reads that would throw a `RangeError` are modelled as `Option`
failures / `Except` errors.  Collaborator utilities that live outside the
covered sources (the `BaseFormat` helpers `escapeHTML`, `cleanEdges`,
`isNumber`, and the colour tokens) are abstracted as parameters, exactly as
the specification declares them external.
-/

/-- The double-quote character (written via its code point to keep string
escapes out of definitions). -/
def quoteChar : Char := Char.ofNat 34

/-- Whitespace predicate used by JavaScript `String.prototype.trim` (the
characters that can actually occur in the annotations handled here). -/
def isWs (c : Char) : Bool := c == ' ' || c == '\t' || c == '\n' || c == '\r'

/-- JavaScript `s.trim()`: strip whitespace from both ends. -/
def trimChars (s : List Char) : List Char :=
  ((s.dropWhile isWs).reverse.dropWhile isWs).reverse

/-- Generic splitter: walk the characters; when `f c rest` holds for the
current character `c` (with `rest` the characters after it), close the
current segment.  The accumulator carries the current segment reversed.
This is the common shape of `String.prototype.split` with a character or
lookahead-regex delimiter. -/
def splitBy (f : Char → List Char → Bool) : List Char → List Char → List (List Char)
  | [], acc => [acc.reverse]
  | c :: rest, acc =>
    if f c rest then acc.reverse :: splitBy f rest []
    else splitBy f rest (c :: acc)

/-- Join segments with a separator character (JavaScript `Array.prototype.join`
with a one-character separator, and the inverse image of `splitBy`). -/
def joinSep (sep : Char) : List (List Char) → List Char
  | [] => []
  | [x] => x
  | x :: y :: ys => x ++ sep :: joinSep sep (y :: ys)

/-- ForgeUI.run line 23: `this.raw.split('\n')`. -/
def splitLines (s : List Char) : List (List Char) :=
  splitBy (fun c _ => c == '\n') s []

/-- ForgeUI.run lines 26-29: the last line of the annotation (`''` when there
are no lines, which cannot happen since `split` never returns an empty
array). -/
def lastLine (s : List Char) : List Char :=
  (splitLines s).getLastD []

/-- ForgeUI.run lines 34-41: the prompt block.  One line total: that line;
more: all but the last line re-joined with `'\n'`. -/
def promptBlock (s : List Char) : List Char :=
  match splitLines s with
  | [] => []
  | [l] => l
  | ls => joinSep '\n' ls.dropLast

/-- The delimiter condition of `text.split(/,(?=(?:(?:[^"]*"){2})*[^"]*$)/)`
(ForgeUI.parseParameters line 125): a comma splits exactly when the number of
double quotes in the rest of the line is even. -/
def commaOutsideQuotes (c : Char) (rest : List Char) : Bool :=
  c == ',' && (rest.count quoteChar) % 2 == 0

/-- The quote-aware comma split of the settings line. -/
def splitQuoteAware (s : List Char) : List (List Char) :=
  splitBy commaOutsideQuotes s []

/-- JavaScript `s.indexOf(c)` for a single character: index of the first
occurrence, `none` when absent (the source's `-1`). -/
def indexOfChar (c : Char) : List Char → Option Nat
  | [] => none
  | a :: t => if a = c then some 0 else (indexOfChar c t).map (· + 1)

/-- ForgeUI.parseParameters lines 127-135, applied to one segment: skip
whitespace-only segments and segments without a colon; key = text before the
first colon (trimmed), value = text after it (trimmed, with the outer pair of
double quotes stripped when the value both starts and ends with one). -/
def segToEntry (part : List Char) : Option (List Char × List Char) :=
  if (trimChars part).isEmpty then none
  else
    match indexOfChar ':' part with
    | none => none
    | some i =>
      let key := trimChars (part.take i)
      let value := trimChars (part.drop (i + 1))
      let value :=
        if value.head? = some quoteChar ∧ value.getLast? = some quoteChar then
          (value.drop 1).dropLast
        else value
      some (key, value)

/-- The body of the `for` loop of ForgeUI.parseParameters: push the entry of
a usable segment onto `result`. -/
def pushEntry (res : List (List Char × List Char)) (part : List Char) :
    List (List Char × List Char) :=
  match segToEntry part with
  | some e => res ++ [e]
  | none => res

/-- ForgeUI.parseParameters (lines 123-138): quote-aware comma split, then the
`for`-loop that pushes one `{key, value}` per usable segment, in order. -/
def parseParameters (text : List Char) : List (List Char × List Char) :=
  (splitQuoteAware text).foldl pushEntry []

/-- One step of the JavaScript regex `/<[^>]+>/g`: given the characters after
a `'<'`, return the span body and the remaining characters when the regex
matches here, i.e. when there is a later `'>'` with at least one non-`'>'`
character before it. -/
def spanSplit (rest : List Char) : Option (List Char × List Char) :=
  let body := rest.takeWhile (fun c => c != '>')
  if body.isEmpty ∨ rest.length ≤ body.length then none
  else some (body, rest.drop (body.length + 1))

/-- Fuelled scanner implementing both `positive.match(/<[^>]+>/g)` (first
component: the matched spans, in order) and
`positive.replace(/<[^>]+>/g, "")` (second component: the text with the
matched spans removed), as in ForgeUI.run lines 58 and 65.  On a failed match
at a `'<'` the scan resumes at the next character, as the JavaScript regex
engine does.  The fuel only needs to dominate the input length. -/
def scanSpansF : Nat → List Char → List (List Char) × List Char
  | 0, s => ([], s)
  | _ + 1, [] => ([], [])
  | fuel + 1, c :: rest =>
    if c = '<' then
      match spanSplit rest with
      | some (body, after) =>
        let r := scanSpansF fuel after
        (('<' :: body ++ ['>']) :: r.1, r.2)
      | none =>
        let r := scanSpansF fuel rest
        (r.1, c :: r.2)
    else
      let r := scanSpansF fuel rest
      (r.1, c :: r.2)

/-- The span scanner at its natural fuel. -/
def scanSpans (s : List Char) : List (List Char) × List Char :=
  scanSpansF s.length s

/-- The literal marker of ForgeUI.run line 45. -/
def negMarker : List Char := "Negative prompt:".data

/-- JavaScript `s.indexOf(pat)` for a substring pattern: index of the first
occurrence, `none` when absent (`includes` is `isSome` of this). -/
def indexOfSub (pat : List Char) : List Char → Option Nat
  | [] => if pat.isPrefixOf ([] : List Char) then some 0 else none
  | c :: t =>
    if pat.isPrefixOf (c :: t) then some 0
    else (indexOfSub pat t).map (· + 1)

/-- JavaScript `s.includes(pat)` as a Bool. -/
def hasSub (pat s : List Char) : Bool := (indexOfSub pat s).isSome

/-- ForgeUI.run lines 43-53: split the prompt block at the first
`"Negative prompt:"` marker; without a marker the whole block (trimmed) is
the positive prompt and the negative prompt is empty. -/
def splitNeg (block : List Char) : List Char × List Char :=
  match indexOfSub negMarker block with
  | some i =>
    (trimChars (block.take i), trimChars (block.drop (i + negMarker.length)))
  | none => (trimChars block, [])

/-- The collaborator-supplied pieces of `BaseFormat` (HTML escaping, edge
cleanup, numeric detection) and the colour tokens, which the covered sources
use opaquely; `loraDisplay` abstracts the colourising substitution of
ForgeUI.run line 85, which only styles the display text of the `LoRA:` entry
and is not touched by any claim. -/
structure ForgeOpts where
  escapeHTML : List Char → List Char
  cleanEdges : List Char → List Char
  isNumber : List Char → Bool
  loraDisplay : List Char → List Char
  color_int : List Char
  color_file : List Char

/-- JavaScript object assignment `obj[k] = v` on an insertion-ordered object
modelled as an association list: overwrite in place, else append. -/
def objSet {κ ν : Type} [DecidableEq κ] : List (κ × ν) → κ → ν → List (κ × ν)
  | [], k, v => [(k, v)]
  | (k', v') :: rest, k, v =>
    if k' = k then (k, v) :: rest else (k', v') :: objSet rest k v

/-- The positive prompt right after the `"Negative prompt:"` split (ForgeUI
line 48/52), before style references are removed. -/
def promptPositiveRaw (raw : List Char) : List Char :=
  (splitNeg (promptBlock raw)).1

/-- The negative prompt right after the split (ForgeUI line 49/44). -/
def promptNegativeRaw (raw : List Char) : List Char :=
  (splitNeg (promptBlock raw)).2

/-- ForgeUI.run line 58: `positive.match(/<[^>]+>/g)` (the `this.lora` list;
JavaScript gives `null` when there is no match, modelled as `[]`). -/
def forgeLoras (raw : List Char) : List (List Char) :=
  (scanSpans (promptPositiveRaw raw)).1

/-- ForgeUI.run lines 65-68: the positive prompt with the spans removed and
the edges cleaned. -/
def forgePositive (opts : ForgeOpts) (raw : List Char) : List Char :=
  opts.cleanEdges (scanSpans (promptPositiveRaw raw)).2

/-- ForgeUI.run line 69. -/
def forgeNegative (opts : ForgeOpts) (raw : List Char) : List Char :=
  opts.cleanEdges (promptNegativeRaw raw)

/-- ForgeUI.run line 91: `this.params = this.parseParameters(last_line)`. -/
def forgeParams (raw : List Char) : List (List Char × List Char) :=
  parseParameters (lastLine raw)

/-- ForgeUI.run lines 75-89: the report before the settings loop — the
`Prompt:<br>` entry, the `Negative Prompt:<br>` entry when the (cleaned)
negative prompt is non-empty, and the `LoRA:` entry when the match list is
non-`null`. -/
def forgeBaseOf (opts : ForgeOpts) (raw : List Char) : List (List Char × List Char) :=
  let positive := forgePositive opts raw
  let negative := forgeNegative opts raw
  let lora := forgeLoras raw
  let r1 : List (List Char × List Char) :=
    [("Prompt:<br>".data, opts.escapeHTML positive)]
  let r2 :=
    if negative ≠ [] then
      objSet r1 "Negative Prompt:<br>".data (opts.escapeHTML negative)
    else r1
  if lora ≠ [] then
    objSet r2 "LoRA:".data
      (lora.foldl (fun acc l => acc ++ "<br>".data ++ opts.loraDisplay l) [])
  else r2

/-- ForgeUI.run lines 92-104: fold the settings entries into the report.
`key` is the escaped key (the `Model` comparison on line 99 uses the escaped
key, as in the source); numeric values get the int colour, the `Model` key
the file colour. -/
def forgeOutput (opts : ForgeOpts) (raw : List Char) : List (List Char × List Char) :=
  (forgeParams raw).foldl
    (fun res e =>
      let keyE := opts.escapeHTML e.1
      let text := opts.escapeHTML e.2
      if opts.isNumber e.2 then objSet res (keyE ++ ": ".data) (opts.color_int ++ text)
      else if keyE = "Model".data then objSet res (keyE ++ ": ".data) (opts.color_file ++ text)
      else objSet res (keyE ++ ": ".data) text)
    (forgeBaseOf opts raw)

/-- The metadata object handed to `ImageUploader.parceMetadata`: the PNG text
chunks (or the EXIF-derived `tags` object) of interest.  A missing field is a
falsy (`undefined`) property. -/
structure MetaObj where
  parameters : Option String
  prompt : Option String

/-- JavaScript truthiness of an optional string property: present and
non-empty. -/
def truthyS : Option String → Bool
  | none => false
  | some s => !s.isEmpty

/-- The report type produced by `parceMetadata`: a JavaScript object as an
insertion-ordered association list. -/
abbrev Report := List (String × String)

/-- The fixed message of ImageUploader.parceMetadata lines 244-247. -/
def noSectionsMsg : String := "No parameters or prompt sections in metadata"

/-- ImageUploader.parceMetadata (lines 208-250), parameterised by the two
annotation parsers (ForgeUI on `metadata.parameters`, ComfyUI on
`metadata.prompt`), each modelled as returning its `output` report or
throwing.  An `Except.error r` in the intermediate values encodes the early
`return r` of the source; `Except.ok result` encodes falling through with the
current `result` object. -/
def parceMetadata (md : Option MetaObj)
    (forge comfy : String → Except Unit Report) : Report :=
  let step1 : Except Report Report :=
    match md with
    | some m =>
      if truthyS m.parameters then
        match forge (m.parameters.getD "") with
        | .ok out => .error out
        | .error _ => .ok (objSet ([] : Report) "Error" "Error in parameters section")
      else .ok []
    | none => .ok []
  match step1 with
  | .error out => out
  | .ok result =>
    let step2 : Except Report Report :=
      match md with
      | some m =>
        if truthyS m.prompt then
          match comfy (m.prompt.getD "") with
          | .ok out => .error out
          | .error _ => .ok (objSet result "Error" "Error in prompt section")
        else .ok result
      | none => .ok result
    match step2 with
    | .error out => out
    | .ok result =>
      if result.isEmpty then objSet result "Error" noSectionsMsg else result

/-- `DataView.getUint8`: a read past the end throws (modelled as `none`). -/
def getUint8 (b : List Nat) (i : Nat) : Option Nat := b[i]?

/-- `DataView.getUint16` with an explicit big-endian flag (the source passes
`!bigEnd` as the little-endian argument; no argument means big-endian). -/
def getUint16 (b : List Nat) (i : Nat) (bigEnd : Bool) : Option Nat :=
  match getUint8 b i, getUint8 b (i + 1) with
  | some x, some y => some (if bigEnd then x * 256 + y else y * 256 + x)
  | _, _ => none

/-- `DataView.getUint32` with an explicit big-endian flag. -/
def getUint32 (b : List Nat) (i : Nat) (bigEnd : Bool) : Option Nat :=
  match getUint16 b i bigEnd, getUint16 b (i + 2) bigEnd with
  | some x, some y => some (if bigEnd then x * 65536 + y else y * 65536 + x)
  | _, _ => none

/-- ImageUploader.readEXIFData lines 385-391 (`getStringFromDB`): the bytes at
`start .. start+length-1` (the source builds a string from their char codes;
the byte list is kept here).  An out-of-range read throws. -/
def getStringFromDB (b : List Nat) (start len : Nat) : Option (List Nat) :=
  (List.range len).mapM (fun k => getUint8 b (start + k))

/-- A decoded TIFF tag value: a byte-blob string (type 7) or an unsigned
32-bit integer (type 4, count 1). -/
inductive TagValue
  | bytes : List Nat → TagValue
  | num : Nat → TagValue
deriving DecidableEq

/-- ImageUploader.readEXIFData lines 353-369 (`readTagValue`): read type,
count and value/offset field of one 12-byte directory entry; type 7 reads
`numValues - 8` bytes starting at `offset + 7` (where `offset` is
`valueOffset` when `numValues > 4`, else the inline field at
`entryOffset + 8`); type 4 with count 1 is the inline integer; anything else
is left undecoded (`ok none` = the JavaScript `undefined` fallthrough).
`Except.error` models a thrown `RangeError`.  `numValues - 8` is the
JavaScript subtraction: when it is negative the read loop does not run, which
the truncated `Nat` subtraction reproduces. -/
def readTagValue (b : List Nat) (entryOffset tiffStart : Nat) (bigEnd : Bool) :
    Except Unit (Option TagValue) :=
  match getUint16 b (entryOffset + 2) bigEnd,
        getUint32 b (entryOffset + 4) bigEnd,
        getUint32 b (entryOffset + 8) bigEnd with
  | some ty, some numValues, some valueField =>
    if ty = 7 then
      let off := if numValues > 4 then valueField + tiffStart else entryOffset + 8
      match getStringFromDB b (off + 7) (numValues - 8) with
      | some bs => .ok (some (.bytes bs))
      | none => .error ()
    else if ty = 4 ∧ numValues = 1 then
      .ok (some (.num valueField))
    else .ok none
  | _, _, _ => .error ()

/-- A tag-name table (`TiffTags` / `ExifTags` of lines 350-351). -/
abbrev TagTable := List (Nat × String)

/-- Table lookup `strings[tagId]`: `none` is the JavaScript `undefined`. -/
def lookupTag (tbl : TagTable) (id : Nat) : Option String :=
  (tbl.find? (fun p => p.1 == id)).map Prod.snd

/-- The object built by `readTags`: JavaScript stores `tags[tag] = value`
even when `tag` is `undefined`, so the key is an `Option String` (`none` is
the single `undefined` key). -/
abbrev TagObj := List (Option String × Option TagValue)

/-- The entry loop of ImageUploader.readEXIFData lines 377-381, over the list
of entry indices. -/
def readTagsLoop (b : List Nat) (tiffStart dirStart : Nat) (tbl : TagTable)
    (bigEnd : Bool) : List Nat → TagObj → Except Unit TagObj
  | [], tags => .ok tags
  | i :: is, tags =>
    let entryOffset := dirStart + i * 12 + 2
    match getUint16 b entryOffset bigEnd with
    | none => .error ()
    | some tagId =>
      match readTagValue b entryOffset tiffStart bigEnd with
      | .error e => .error e
      | .ok v => readTagsLoop b tiffStart dirStart tbl bigEnd is
          (objSet tags (lookupTag tbl tagId) v)

/-- ImageUploader.readEXIFData lines 371-383 (`readTags`): read the 2-byte
entry count at `dirStart`, then iterate the 12-byte entries. -/
def readTags (b : List Nat) (tiffStart dirStart : Nat) (tbl : TagTable)
    (bigEnd : Bool) : Except Unit TagObj :=
  match getUint16 b dirStart bigEnd with
  | none => .error ()
  | some entries => readTagsLoop b tiffStart dirStart tbl bigEnd (List.range entries) []

/-- Outcomes of the JPEG marker scan of `readEXIFMetadata`: the `return false`
cases (not a JPEG / a non-`0xFF` marker byte), falling off the `while` loop
(`undefined`), or reaching the `0xFFE1` handler with the payload position and
declared length. -/
inductive ScanResult
  | notJpeg
  | badMarker
  | notFound
  | found (start len : Nat)
deriving DecidableEq

/-- A thrown `RangeError` (out-of-bounds `DataView` read), or exhausted fuel
(unreachable: each iteration advances `offset` by at least 2, so `length + 1`
fuel always suffices; the variant is kept distinct so that no theorem can
mistake fuel exhaustion for an out-of-bounds read). -/
inductive ExifErr
  | outOfBounds
  | fuel
deriving DecidableEq

/-- The `while (offset < length)` loop of ImageUploader.readEXIFMetadata lines
320-336: expect `0xFF`, read the marker byte, stop at `0xE1 = 225`, otherwise
advance by `2 + segment length` with no lower bound on the declared length. -/
def scanLoopF (b : List Nat) : Nat → Nat → Except ExifErr ScanResult
  | 0, _ => .error .fuel
  | fuel + 1, offset =>
    if offset < b.length then
      match getUint8 b offset with
      | none => .error .outOfBounds
      | some x =>
        if x ≠ 255 then .ok .badMarker
        else
          match getUint8 b (offset + 1) with
          | none => .error .outOfBounds
          | some marker =>
            if marker = 225 then
              match getUint16 b (offset + 2) true with
              | none => .error .outOfBounds
              | some seglen => .ok (.found (offset + 4) (seglen - 2))
            else
              match getUint16 b (offset + 2) true with
              | none => .error .outOfBounds
              | some seglen => scanLoopF b fuel (offset + 2 + seglen)
    else .ok .notFound

/-- ImageUploader.readEXIFMetadata lines 304-338: check the SOI marker
`0xFF 0xD8`, then run the segment scan from offset 2. -/
def readEXIFMetadata (b : List Nat) : Except ExifErr ScanResult :=
  match getUint8 b 0, getUint8 b 1 with
  | some a, some c =>
    if a = 255 ∧ c = 216 then scanLoopF b (b.length + 1) 2 else .ok .notJpeg
  | _, _ => .error .outOfBounds

/-- `p` occurs as a contiguous substring of `s`. -/
def occursIn (p s : List Char) : Prop := ∃ u v, s = u ++ p ++ v

/-- `t` contains a match of `/<[^>]+>/`: a `'<'`, a non-empty `'>'`-free body,
then a `'>'`. -/
def SpanShape (t : List Char) : Prop :=
  ∃ u body v, t = u ++ '<' :: (body ++ '>' :: v) ∧ body ≠ [] ∧ '>' ∉ body

/-- The style-reference span used by the spec's testable property. -/
def spanABC : List Char := "<a:b:c>".data

/-- A concrete instantiation of the collaborator-supplied utilities, used
only to state closed counterexamples (the refuted behaviour does not depend
on these functions). -/
def trivOpts : ForgeOpts :=
  { escapeHTML := id, cleanEdges := id, isNumber := fun _ => false,
    loraDisplay := id, color_int := [], color_file := [] }

/-- A TIFF fragment whose directory entry 0 has type 7 (undefined byte blob)
and count 12, pointing at offset 12 (`tiffStart = 0`), where the 12 value
bytes are the 8-byte marker prefix `ASCII\0\0\0` followed by the text
`HEY!` (bytes 72, 69, 89, 33). -/
def c3buf : List Nat :=
  [0x92, 0x86, 0, 7, 0, 0, 0, 12, 0, 0, 0, 12,
   65, 83, 67, 73, 73, 0, 0, 0, 72, 69, 89, 33]

/-- A malformed JPEG: SOI, then a segment whose declared length field lies
past the end of the buffer. -/
def c4buf : List Nat := [255, 216, 255, 224]

/-- A one-entry IFD at offset 0 (big-endian) whose entry carries tag id 0 —
absent from every tag table used by the source — with type 4, count 1,
value 5. -/
def c9buf : List Nat := [0, 1, 0, 0, 0, 4, 0, 0, 0, 1, 0, 0, 0, 5]

/-- A one-entry IFD at offset 0 (big-endian) whose entry carries the known
tag id 0x8769 with type 4, count 1, value 8. -/
def c9bufKnown : List Nat := [0, 1, 0x87, 0x69, 0, 4, 0, 0, 0, 1, 0, 0, 0, 8]

/-- The root TIFF tag table of ImageUploader.readEXIFData line 350. -/
def tiffTagTable : TagTable := [(0x8769, "ExifIFDPointer")]

/-! ## Lemmas about the generic splitter and joiner -/

theorem joinSep_cons₂ (sep : Char) (x y : List Char) (ys : List (List Char)) :
    joinSep sep (x :: y :: ys) = x ++ sep :: joinSep sep (y :: ys) := rfl

theorem splitBy_ne_nil (f : Char → List Char → Bool) :
    ∀ (s acc : List Char), splitBy f s acc ≠ [] := by
  intro s
  induction s with
  | nil => intro acc; simp [splitBy]
  | cons c rest ih =>
    intro acc
    simp only [splitBy]
    split
    · simp
    · exact ih (c :: acc)

theorem joinSep_splitBy (sep : Char) (f : Char → List Char → Bool)
    (hf : ∀ c r, f c r = true → c = sep) :
    ∀ (s acc : List Char), joinSep sep (splitBy f s acc) = acc.reverse ++ s := by
  intro s
  induction s with
  | nil => intro acc; simp [splitBy, joinSep]
  | cons c rest ih =>
    intro acc
    simp only [splitBy]
    split
    · next hcond =>
      have hc : c = sep := hf c rest hcond
      obtain ⟨x, xs, hx⟩ : ∃ x xs, splitBy f rest [] = x :: xs := by
        cases h : splitBy f rest [] with
        | nil => exact absurd h (splitBy_ne_nil f rest [])
        | cons x xs => exact ⟨x, xs, rfl⟩
      rw [hx, joinSep_cons₂, ← hx, ih]
      simp [hc]
    · rw [ih]
      simp
theorem splitBy_no_split (f : Char → List Char → Bool) :
    ∀ (s acc : List Char), (∀ c ∈ s, ∀ r, f c r = false) →
      splitBy f s acc = [acc.reverse ++ s] := by
  intro s
  induction s with
  | nil => intro acc _; simp [splitBy]
  | cons c rest ih =>
    intro acc h
    simp only [splitBy]
    rw [if_neg (by simp [h c (by simp)])]
    rw [ih (c :: acc) (fun d hd r => h d (by simp [hd]) r)]
    simp

theorem mem_joinSep (sep : Char) (c : Char) :
    ∀ (xss : List (List Char)) (x : List Char), x ∈ xss → c ∈ x →
      c ∈ joinSep sep xss := by
  intro xss
  induction xss with
  | nil => intro x hx; simp at hx
  | cons y ys ih =>
    intro x hx hc
    cases ys with
    | nil =>
      simp at hx
      subst hx
      simpa [joinSep] using hc
    | cons z zs =>
      rw [joinSep_cons₂]
      rcases List.mem_cons.mp hx with hx | hx
      · subst hx; exact List.mem_append_left _ hc
      · exact List.mem_append_right _ (List.mem_cons_of_mem _ (ih x hx hc))

theorem getLastD_mem {α : Type} (d : α) :
    ∀ (l : List α), l ≠ [] → l.getLastD d ∈ l := by
  intro l
  induction l with
  | nil => intro h; exact absurd rfl h
  | cons a t ih =>
    intro _
    cases t with
    | nil => simp
    | cons b u =>
      have := ih (by simp)
      simpa using Or.inr this

/-! ## Lemmas about line splitting and the tokenizer -/

theorem joinSep_splitLines (s : List Char) :
    joinSep '\n' (splitLines s) = s := by
  have := joinSep_splitBy '\n' (fun c _ => c == '\n')
    (fun c r h => by simpa using h) s []
  simpa [splitLines] using this

theorem splitLines_single (s : List Char) (h : '\n' ∉ s) :
    splitLines s = [s] := by
  have := splitBy_no_split (fun c _ => c == '\n') s []
    (fun c hc r => by
      simp only [beq_eq_false_iff_ne, ne_eq]
      intro he; exact h (he ▸ hc))
  simpa [splitLines] using this

theorem joinSep_splitQuoteAware (t : List Char) :
    joinSep ',' (splitQuoteAware t) = t := by
  have := joinSep_splitBy ',' commaOutsideQuotes
    (fun c r h => by
      simp only [commaOutsideQuotes, Bool.and_eq_true, beq_iff_eq] at h
      exact h.1) t []
  simpa [splitQuoteAware] using this

theorem foldl_pushEntry :
    ∀ (l : List (List Char)) (init : List (List Char × List Char)),
      l.foldl pushEntry init = init ++ l.filterMap segToEntry := by
  intro l
  induction l with
  | nil => intro init; simp
  | cons a t ih =>
    intro init
    simp only [List.foldl_cons, List.filterMap_cons, pushEntry]
    cases h : segToEntry a with
    | none => rw [ih]
    | some e => rw [ih]; simp

theorem parseParameters_eq (t : List Char) :
    parseParameters t = (splitQuoteAware t).filterMap segToEntry := by
  simpa [parseParameters] using foldl_pushEntry (splitQuoteAware t) []

theorem indexOfChar_eq_none (c : Char) :
    ∀ (l : List Char), (∀ a ∈ l, a ≠ c) → indexOfChar c l = none := by
  intro l
  induction l with
  | nil => intro _; rfl
  | cons a t ih =>
    intro h
    simp only [indexOfChar]
    rw [if_neg (h a (by simp)), ih (fun b hb => h b (by simp [hb]))]
    rfl

theorem segToEntry_eq_none_of_no_colon (part : List Char)
    (h : ∀ a ∈ part, a ≠ ':') : segToEntry part = none := by
  simp only [segToEntry]
  split
  · rfl
  · rw [indexOfChar_eq_none ':' part h]

theorem parseParameters_no_colon (t : List Char) (h : ∀ a ∈ t, a ≠ ':') :
    parseParameters t = [] := by
  rw [parseParameters_eq]
  apply List.filterMap_eq_nil_iff.mpr
  intro part hpart
  apply segToEntry_eq_none_of_no_colon
  intro a ha
  apply h
  have := mem_joinSep ',' a (splitQuoteAware t) part hpart ha
  rwa [joinSep_splitQuoteAware] at this

theorem mem_lastLine (s : List Char) (c : Char) (h : c ∈ lastLine s) : c ∈ s := by
  have hne : splitLines s ≠ [] := splitBy_ne_nil _ s []
  have hmem : lastLine s ∈ splitLines s := getLastD_mem [] (splitLines s) hne
  have := mem_joinSep '\n' c (splitLines s) (lastLine s) hmem h
  rwa [joinSep_splitLines] at this

/-! ## Lemmas about the style-reference scanner -/

theorem spanSplit_eq_some {rest body after : List Char}
    (h : spanSplit rest = some (body, after)) :
    body = rest.takeWhile (fun c => c != '>') ∧
      after = rest.drop (body.length + 1) ∧
      body ≠ [] ∧ body.length < rest.length := by
  simp only [spanSplit] at h
  split at h
  · simp at h
  · next hcond =>
    rw [not_or] at hcond
    obtain ⟨h1, h2⟩ := hcond
    injection h with h
    injection h with hb ha
    subst hb
    subst ha
    refine ⟨rfl, rfl, ?_, ?_⟩
    · simpa [List.isEmpty_iff] using h1
    · omega

theorem scanSpansF_nil : ∀ f, scanSpansF f [] = ([], []) := by
  intro f
  cases f <;> rfl

theorem scanSpansF_irrel :
    ∀ (f₁ : Nat) (s : List Char) (f₂ : Nat),
      s.length ≤ f₁ → s.length ≤ f₂ → scanSpansF f₁ s = scanSpansF f₂ s := by
  intro f₁
  induction f₁ with
  | zero =>
    intro s f₂ h1 _
    have hs : s = [] := List.length_eq_zero.mp (Nat.le_zero.mp h1)
    subst hs
    rw [scanSpansF_nil, scanSpansF_nil]
  | succ f ih =>
    intro s f₂ h1 h2
    cases s with
    | nil => rw [scanSpansF_nil, scanSpansF_nil]
    | cons c rest =>
      cases f₂ with
      | zero => simp at h2
      | succ g =>
        simp only [List.length_cons, Nat.succ_le_succ_iff] at h1 h2
        simp only [scanSpansF]
        by_cases hc : c = '<'
        · rw [if_pos hc, if_pos hc]
          cases hsp : spanSplit rest with
          | none => rw [ih rest g h1 h2]
          | some ba =>
            obtain ⟨body, after⟩ := ba
            obtain ⟨_, hafter, _, hlt⟩ := spanSplit_eq_some hsp
            have hle : after.length ≤ rest.length := by
              rw [hafter]
              simp only [List.length_drop]
              omega
            dsimp only
            rw [ih after g (le_trans hle h1) (le_trans hle h2)]
        · rw [if_neg hc, if_neg hc]
          rw [ih rest g h1 h2]

theorem scanSpans_cons_match {c : Char} {rest body after : List Char}
    (hc : c = '<') (hsp : spanSplit rest = some (body, after)) :
    scanSpans (c :: rest) =
      (('<' :: body ++ ['>']) :: (scanSpans after).1, (scanSpans after).2) := by
  obtain ⟨_, hafter, _, hlt⟩ := spanSplit_eq_some hsp
  have hle : after.length ≤ rest.length := by
    rw [hafter]
    simp only [List.length_drop]
    omega
  show scanSpansF (rest.length + 1) (c :: rest) = _
  simp only [scanSpansF, if_pos hc, hsp]
  rw [scanSpansF_irrel rest.length after after.length hle (le_refl _)]
  rfl

theorem scanSpans_cons_nomatch {c : Char} {rest : List Char}
    (hc : c = '<') (hsp : spanSplit rest = none) :
    scanSpans (c :: rest) = ((scanSpans rest).1, c :: (scanSpans rest).2) := by
  show scanSpansF (rest.length + 1) (c :: rest) = _
  simp only [scanSpansF, if_pos hc, hsp]
  rfl

theorem scanSpans_cons_ne {c : Char} {rest : List Char} (hc : ¬ c = '<') :
    scanSpans (c :: rest) = ((scanSpans rest).1, c :: (scanSpans rest).2) := by
  show scanSpansF (rest.length + 1) (c :: rest) = _
  simp only [scanSpansF, if_neg hc]
  rfl

theorem mem_scanSpansF_clean :
    ∀ (fuel : Nat) (s : List Char) (c : Char),
      c ∈ (scanSpansF fuel s).2 → c ∈ s := by
  intro fuel
  induction fuel with
  | zero => intro s c h; exact h
  | succ f ih =>
    intro s c h
    cases s with
    | nil => rw [scanSpansF_nil] at h; simp at h
    | cons a rest =>
      simp only [scanSpansF] at h
      by_cases hc : a = '<'
      · rw [if_pos hc] at h
        cases hsp : spanSplit rest with
        | none =>
          rw [hsp] at h
          dsimp only at h
          rcases List.mem_cons.mp h with h | h
          · simp [h]
          · exact List.mem_cons_of_mem a (ih rest c h)
        | some ba =>
          obtain ⟨body, after⟩ := ba
          rw [hsp] at h
          dsimp only at h
          obtain ⟨_, hafter, _, _⟩ := spanSplit_eq_some hsp
          have : c ∈ after := ih after c h
          rw [hafter] at this
          exact List.mem_cons_of_mem a (List.mem_of_mem_drop this)
      · rw [if_neg hc] at h
        dsimp only at h
        rcases List.mem_cons.mp h with h | h
        · simp [h]
        · exact List.mem_cons_of_mem a (ih rest c h)

theorem takeWhile_full (p : Char → Bool) :
    ∀ (l : List Char), l.length ≤ (l.takeWhile p).length →
      ∀ c ∈ l, p c = true := by
  intro l
  induction l with
  | nil => intro _ c hc; simp at hc
  | cons a t ih =>
    intro h c hc
    rw [List.takeWhile_cons] at h
    by_cases hp : p a
    · rw [if_pos hp] at h
      simp only [List.length_cons, Nat.succ_le_succ_iff] at h
      rcases List.mem_cons.mp hc with rfl | hc'
      · exact hp
      · exact ih h c hc'
    · rw [if_neg hp] at h
      simp at h

theorem scanSpansF_gt_head (f : Nat) (rs : List Char) :
    ∃ w, (scanSpansF f ('>' :: rs)).2 = '>' :: w := by
  cases f with
  | zero => exact ⟨rs, rfl⟩
  | succ g =>
    refine ⟨(scanSpansF g rs).2, ?_⟩
    simp only [scanSpansF]
    rw [if_neg (by decide)]

theorem no_span_in_clean :
    ∀ (fuel : Nat) (s : List Char), s.length ≤ fuel →
      ¬ SpanShape (scanSpansF fuel s).2 := by
  intro fuel
  induction fuel with
  | zero =>
    intro s h1 hshape
    have hs : s = [] := List.length_eq_zero.mp (Nat.le_zero.mp h1)
    subst hs
    rw [scanSpansF_nil] at hshape
    obtain ⟨u, body, v, heq, _, _⟩ := hshape
    exact absurd heq.symm (by simp)
  | succ f ih =>
    intro s h1 hshape
    cases s with
    | nil =>
      rw [scanSpansF_nil] at hshape
      obtain ⟨u, body, v, heq, _, _⟩ := hshape
      exact absurd heq.symm (by simp)
    | cons a rest =>
      simp only [List.length_cons, Nat.succ_le_succ_iff] at h1
      by_cases hc : a = '<'
      · cases hsp : spanSplit rest with
        | some ba =>
          obtain ⟨body, after⟩ := ba
          obtain ⟨_, hafter, _, hlt⟩ := spanSplit_eq_some hsp
          have hle : after.length ≤ rest.length := by
            rw [hafter]
            simp only [List.length_drop]
            omega
          have hunf : (scanSpansF (f + 1) (a :: rest)).2 = (scanSpansF f after).2 := by
            simp only [scanSpansF, if_pos hc, hsp]
          rw [hunf] at hshape
          exact ih after (le_trans hle h1) hshape
        | none =>
          have hunf : (scanSpansF (f + 1) (a :: rest)).2 = a :: (scanSpansF f rest).2 := by
            simp only [scanSpansF, if_pos hc, hsp]
          rw [hunf] at hshape
          obtain ⟨u, body, v, heq, hbne, hbgt⟩ := hshape
          cases u with
          | cons u0 u' =>
            rw [List.cons_append] at heq
            injection heq with _ heq'
            exact ih rest h1 ⟨u', body, v, heq', hbne, hbgt⟩
          | nil =>
            rw [List.nil_append] at heq
            injection heq with ha heq'
            simp only [spanSplit] at hsp
            split at hsp
            · next hcond =>
              rcases hcond with hemp | hlong
              · -- takeWhile is empty: rest is empty or starts with '>'
                cases rest with
                | nil =>
                  rw [scanSpansF_nil] at heq'
                  exact absurd heq'.symm (by simp [hbne])
                | cons r0 rs =>
                  have hr0 : r0 = '>' := by
                    by_contra hne
                    simp [List.takeWhile_cons, List.isEmpty_iff, hne] at hemp
                  subst hr0
                  obtain ⟨w, hw⟩ := scanSpansF_gt_head f rs
                  rw [hw] at heq'
                  cases body with
                  | nil => exact hbne rfl
                  | cons b0 bs =>
                    rw [List.cons_append] at heq'
                    injection heq' with hb _
                    exact hbgt (hb ▸ List.mem_cons_self b0 bs)
              · -- no '>' in rest at all
                have hall : ∀ c ∈ rest, (c != '>') = true :=
                  takeWhile_full (fun c => c != '>') rest (le_of_not_lt (by simpa using hlong))
                have hmem : '>' ∈ (scanSpansF f rest).2 := by
                  rw [heq']
                  exact List.mem_append_right _ (List.mem_cons_self '>' v)
                have : '>' ∈ rest := mem_scanSpansF_clean f rest '>' hmem
                have := hall '>' this
                simp at this
            · simp at hsp
      · have hunf : (scanSpansF (f + 1) (a :: rest)).2 = a :: (scanSpansF f rest).2 := by
          simp only [scanSpansF, if_neg hc]
        rw [hunf] at hshape
        obtain ⟨u, body, v, heq, hbne, hbgt⟩ := hshape
        cases u with
        | cons u0 u' =>
          rw [List.cons_append] at heq
          injection heq with _ heq'
          exact ih rest h1 ⟨u', body, v, heq', hbne, hbgt⟩
        | nil =>
          rw [List.nil_append] at heq
          injection heq with ha _
          exact hc ha

theorem takeWhile_append_stop (p : Char → Bool) :
    ∀ (l1 : List Char) (c : Char) (l2 : List Char),
      (∀ a ∈ l1, p a = true) → p c = false →
      (l1 ++ c :: l2).takeWhile p = l1 := by
  intro l1
  induction l1 with
  | nil =>
    intro c l2 _ hc
    simp [List.takeWhile_cons, hc]
  | cons a t ih =>
    intro c l2 hall hc
    rw [List.cons_append, List.takeWhile_cons, if_pos (hall a (by simp))]
    rw [ih c l2 (fun b hb => hall b (by simp [hb])) hc]

theorem spanSplit_abc (suf : List Char) :
    spanSplit ("a:b:c>".data ++ suf) = some ("a:b:c".data, suf) := by
  have habc : "a:b:c>".data = "a:b:c".data ++ '>' :: [] := by rfl
  have htw : ("a:b:c>".data ++ suf).takeWhile (fun c => c != '>') = "a:b:c".data := by
    rw [habc, List.append_assoc, List.cons_append]
    exact takeWhile_append_stop (fun c => c != '>') "a:b:c".data '>' ([] ++ suf)
      (by decide) (by decide)
  simp only [spanSplit, htw]
  rw [if_neg]
  · have hd : List.drop ("a:b:c".data.length + 1) ("a:b:c>".data ++ suf) = suf := by
      have h6 : "a:b:c".data.length + 1 = "a:b:c>".data.length := by rfl
      rw [h6, List.drop_left]
    rw [hd]
  · rw [not_or]
    refine ⟨by decide, ?_⟩
    simp only [not_le, List.length_append]
    simp
    omega

theorem spanABC_mem_scan :
    ∀ (pre suf : List Char), '<' ∉ pre →
      spanABC ∈ (scanSpans (pre ++ spanABC ++ suf)).1 := by
  intro pre
  induction pre with
  | nil =>
    intro suf _
    have hshape : ([] : List Char) ++ spanABC ++ suf = '<' :: ("a:b:c>".data ++ suf) := by
      rfl
    rw [hshape, scanSpans_cons_match rfl (spanSplit_abc suf)]
    left
  | cons c pre' ih =>
    intro suf hpre
    have hc : ¬ c = '<' := by
      intro h
      exact hpre (h ▸ List.mem_cons_self c pre')
    have hpre' : '<' ∉ pre' := fun h => hpre (List.mem_cons_of_mem c h)
    have hshape : (c :: pre') ++ spanABC ++ suf = c :: (pre' ++ spanABC ++ suf) := by
      simp
    rw [hshape, scanSpans_cons_ne hc]
    exact ih suf hpre'

theorem spanABC_not_in_clean (s : List Char) :
    ¬ occursIn spanABC (scanSpans s).2 := by
  intro hocc
  obtain ⟨u, v, heq⟩ := hocc
  apply no_span_in_clean s.length s (le_refl _)
  refine ⟨u, "a:b:c".data, v, ?_, by decide, by decide⟩
  have : spanABC ++ v = '<' :: ("a:b:c".data ++ '>' :: v) := by rfl
  rw [show (scanSpansF s.length s).2 = (scanSpans s).2 from rfl, heq,
    List.append_assoc, this]

/-! ## Lemmas about the marker search and the prompt block -/

theorem isPrefixOf_append_drop :
    ∀ (p s : List Char), p.isPrefixOf s = true → p ++ s.drop p.length = s := by
  intro p
  induction p with
  | nil => intro s _; simp
  | cons a p' ih =>
    intro s h
    cases s with
    | nil => simp [List.isPrefixOf] at h
    | cons b t =>
      simp only [List.isPrefixOf, Bool.and_eq_true, beq_iff_eq] at h
      obtain ⟨hab, hpt⟩ := h
      subst hab
      simp only [List.cons_append, List.length_cons, List.drop_succ_cons]
      rw [ih t hpt]

theorem indexOfSub_decomp :
    ∀ (s pat : List Char) (i : Nat), indexOfSub pat s = some i →
      s.take i ++ pat ++ s.drop (i + pat.length) = s := by
  intro s
  induction s with
  | nil =>
    intro pat i h
    simp only [indexOfSub] at h
    split at h
    · next hp =>
      injection h with h
      subst h
      have : pat = [] := by
        cases pat with
        | nil => rfl
        | cons a t => simp [List.isPrefixOf] at hp
      simp [this]
    · simp at h
  | cons c t ih =>
    intro pat i h
    simp only [indexOfSub] at h
    split at h
    · next hp =>
      injection h with h
      subst h
      simpa using isPrefixOf_append_drop pat (c :: t) hp
    · next hp =>
      cases hrec : indexOfSub pat t with
      | none => rw [hrec] at h; simp at h
      | some j =>
        rw [hrec] at h
        simp only [Option.map_some'] at h
        injection h with h
        subst h
        have := ih pat j hrec
        calc (c :: t).take (j + 1) ++ pat ++ (c :: t).drop (j + 1 + pat.length)
            = c :: (t.take j ++ pat ++ t.drop (j + pat.length)) := by
              simp only [List.take_succ_cons]
              have : j + 1 + pat.length = (j + pat.length) + 1 := by omega
              rw [this, List.drop_succ_cons]
              simp
          _ = c :: t := by rw [this]

theorem isPrefixOf_append_right :
    ∀ (p s r : List Char), p.isPrefixOf s = true → p.isPrefixOf (s ++ r) = true := by
  intro p
  induction p with
  | nil => intro s r _; simp [List.isPrefixOf]
  | cons a p' ih =>
    intro s r h
    cases s with
    | nil => simp [List.isPrefixOf] at h
    | cons b t =>
      simp only [List.isPrefixOf, Bool.and_eq_true, beq_iff_eq] at h ⊢
      exact ⟨h.1, ih t r h.2⟩

theorem indexOfSub_append_isSome :
    ∀ (s pat r : List Char), (indexOfSub pat s).isSome →
      (indexOfSub pat (s ++ r)).isSome := by
  intro s
  induction s with
  | nil =>
    intro pat r h
    simp only [indexOfSub] at h
    split at h
    · next hp =>
      have : pat = [] := by
        cases pat with
        | nil => rfl
        | cons a t => simp [List.isPrefixOf] at hp
      subst this
      cases r with
      | nil => simp [indexOfSub, List.isPrefixOf]
      | cons x xs => simp [indexOfSub, List.isPrefixOf]
    · simp at h
  | cons c t ih =>
    intro pat r h
    simp only [List.cons_append, indexOfSub, List.append_eq]
    by_cases hp : pat.isPrefixOf (c :: (t ++ r)) = true
    · rw [if_pos hp]
      simp
    · rw [if_neg hp]
      have hrec : (indexOfSub pat t).isSome := by
        simp only [indexOfSub] at h
        split at h
        · next hp0 =>
          exact absurd (isPrefixOf_append_right pat (c :: t) r hp0)
            (by simpa [List.cons_append] using hp)
        · simpa using h
      have hx := ih pat r hrec
      cases hy : indexOfSub pat (t ++ r) with
      | none => rw [hy] at hx; simp at hx
      | some j => rfl

theorem joinSep_dropLast (sep : Char) :
    ∀ (ls : List (List Char)) (a b : List Char),
      joinSep sep (a :: b :: ls) =
        joinSep sep ((a :: b :: ls).dropLast) ++ sep :: ((b :: ls).getLastD []) := by
  intro ls
  induction ls with
  | nil =>
    intro a b
    simp [joinSep]
  | cons x xs ih =>
    intro a b
    rw [joinSep_cons₂, ih b x]
    have hdl : (a :: b :: x :: xs).dropLast = a :: (b :: x :: xs).dropLast := by
      simp
    rw [hdl]
    have hne : (b :: x :: xs).dropLast = b :: (x :: xs).dropLast := by
      simp
    rw [hne, joinSep_cons₂, ← hne]
    have hgl : (b :: x :: xs).getLastD ([] : List Char) = (x :: xs).getLastD [] := by
      simp [List.getLastD]
    rw [hgl]
    simp

theorem promptBlock_append (s : List Char) :
    ∃ r, promptBlock s ++ r = s := by
  have hjoin := joinSep_splitLines s
  cases hls : splitLines s with
  | nil => exact absurd hls (splitBy_ne_nil _ s [])
  | cons a t =>
    cases t with
    | nil =>
      refine ⟨[], ?_⟩
      rw [hls] at hjoin
      have hpb : promptBlock s = a := by
        unfold promptBlock
        rw [hls]
      rw [hpb, List.append_nil]
      simpa [joinSep] using hjoin
    | cons b u =>
      refine ⟨'\n' :: ((b :: u).getLastD []), ?_⟩
      have hpb : promptBlock s = joinSep '\n' ((a :: b :: u).dropLast) := by
        unfold promptBlock
        rw [hls]
      rw [hpb]
      rw [hls] at hjoin
      rw [← hjoin]
      exact (joinSep_dropLast '\n' u a b).symm

theorem hasSub_promptBlock_of_hasSub (pat s : List Char)
    (h : hasSub pat s = false) : indexOfSub pat (promptBlock s) = none := by
  cases hx : indexOfSub pat (promptBlock s) with
  | none => rfl
  | some i =>
    obtain ⟨r, hr⟩ := promptBlock_append s
    have h1 : (indexOfSub pat (promptBlock s)).isSome := by rw [hx]; rfl
    have h2 := indexOfSub_append_isSome (promptBlock s) pat r h1
    rw [hr] at h2
    rw [hasSub, h2] at h
    exact absurd h (by simp)

/-! ## Lemmas about the TIFF tag loop -/

theorem objSet_keys {κ ν : Type} [DecidableEq κ] :
    ∀ (m : List (κ × ν)) (k : κ) (v : ν) (p : κ × ν),
      p ∈ objSet m k v → p.1 = k ∨ p ∈ m := by
  intro m
  induction m with
  | nil =>
    intro k v p hp
    simp only [objSet] at hp
    rcases List.mem_singleton.mp hp with rfl
    exact Or.inl rfl
  | cons q rest ih =>
    intro k v p hp
    simp only [objSet] at hp
    split at hp
    · rcases List.mem_cons.mp hp with rfl | hp'
      · exact Or.inl rfl
      · exact Or.inr (List.mem_cons_of_mem q hp')
    · rcases List.mem_cons.mp hp with rfl | hp'
      · exact Or.inr (List.mem_cons_self _ _)
      · rcases ih k v p hp' with h | h
        · exact Or.inl h
        · exact Or.inr (List.mem_cons_of_mem q h)

theorem lookupTag_mem (tbl : TagTable) (id : Nat) (s : String)
    (h : lookupTag tbl id = some s) : s ∈ tbl.map Prod.snd := by
  simp only [lookupTag, Option.map_eq_some'] at h
  obtain ⟨p, hfind, hsnd⟩ := h
  have := List.mem_of_find?_eq_some hfind
  exact hsnd ▸ List.mem_map_of_mem Prod.snd this

theorem readTagsLoop_keys (b : List Nat) (tiffStart dirStart : Nat)
    (tbl : TagTable) (bigEnd : Bool) :
    ∀ (is : List Nat) (tags : TagObj) (res : TagObj),
      (∀ p ∈ tags, ∀ s, p.1 = some s → s ∈ tbl.map Prod.snd) →
      readTagsLoop b tiffStart dirStart tbl bigEnd is tags = .ok res →
      ∀ p ∈ res, ∀ s, p.1 = some s → s ∈ tbl.map Prod.snd := by
  intro is
  induction is with
  | nil =>
    intro tags res hinv hok
    simp only [readTagsLoop] at hok
    injection hok with hok
    exact hok ▸ hinv
  | cons i is' ih =>
    intro tags res hinv hok
    simp only [readTagsLoop] at hok
    cases h16 : getUint16 b (dirStart + i * 12 + 2) bigEnd with
    | none => rw [h16] at hok; exact absurd hok (by simp)
    | some tagId =>
      rw [h16] at hok
      cases hval : readTagValue b (dirStart + i * 12 + 2) tiffStart bigEnd with
      | error e => rw [hval] at hok; exact absurd hok (by simp)
      | ok v =>
        rw [hval] at hok
        refine ih (objSet tags (lookupTag tbl tagId) v) res ?_ hok
        intro p hp s hs
        rcases objSet_keys tags (lookupTag tbl tagId) v p hp with h | h
        · exact lookupTag_mem tbl tagId s (by rw [← h, hs])
        · exact hinv p h s hs

/-! ## Claim theorems -/

/-- C1 counterexample: the single-line annotation `Steps: 20` (one line, so it
is the prompt block) is nonetheless fed to the tokenizer as the settings line:
the parsed settings-entry list is `[{Steps, 20}]`, not empty, and the `Steps:`
entry appears in the report — refuting the claim that for every one-line
annotation the settings list is empty regardless of the line's content. -/
theorem c1_counterexample :
    splitLines "Steps: 20".data = ["Steps: 20".data] ∧
    forgeParams "Steps: 20".data = [("Steps".data, "20".data)] ∧
    forgeOutput trivOpts "Steps: 20".data =
      [("Prompt:<br>".data, "Steps: 20".data), ("Steps: ".data, "20".data)] :=
  ⟨rfl, rfl, rfl⟩

/-- C1 (amended): for a single-line annotation the line is both the prompt
block and the settings line (it is still fed to the tokenizer); the settings
list is empty — and no settings entries are appended to the report — when the
line contains no colon, not for arbitrary content. -/
theorem c1_claim :
    ∀ (raw : List Char) (opts : ForgeOpts), '\n' ∉ raw → (∀ a ∈ raw, a ≠ ':') →
      splitLines raw = [raw] ∧ promptBlock raw = raw ∧ lastLine raw = raw ∧
      forgeParams raw = [] ∧ forgeOutput opts raw = forgeBaseOf opts raw := by
  intro raw opts hnl hcolon
  have hsl : splitLines raw = [raw] := splitLines_single raw hnl
  have hpb : promptBlock raw = raw := by
    unfold promptBlock
    rw [hsl]
  have hll : lastLine raw = raw := by
    unfold lastLine
    rw [hsl]
    rfl
  have hfp : forgeParams raw = [] := by
    unfold forgeParams
    rw [hll]
    exact parseParameters_no_colon raw hcolon
  refine ⟨hsl, hpb, hll, hfp, ?_⟩
  unfold forgeOutput
  rw [hfp]
  rfl

/-- Witness for C1 (amended) at the colon-free single-line annotation
`abc`. -/
theorem c1_witness :
    splitLines "abc".data = ["abc".data] ∧ promptBlock "abc".data = "abc".data ∧
    lastLine "abc".data = "abc".data ∧ forgeParams "abc".data = [] ∧
    forgeOutput trivOpts "abc".data = forgeBaseOf trivOpts "abc".data :=
  c1_claim "abc".data trivOpts (by decide) (by decide)

/-- C2: the settings-line tokenizer splits only on commas outside double
quotes (the quote-parity rule; re-joining the segments with commas restores
the line, so splits happen only at commas), processes segments to ordered
key/value entries via `segToEntry` (drop colon-free segments, trim, strip one
outer quote pair), and on
`Steps: 20, Sampler: "Euler a, fast", CFG scale: 7` produces exactly the
three entries `{Steps, 20}`, `{Sampler, Euler a, fast}`, `{CFG scale, 7}` —
the quoted embedded comma does not split. -/
theorem c2_claim :
    parseParameters "Steps: 20, Sampler: \"Euler a, fast\", CFG scale: 7".data =
      [("Steps".data, "20".data), ("Sampler".data, "Euler a, fast".data),
       ("CFG scale".data, "7".data)] ∧
    (∀ t : List Char,
      parseParameters t = (splitQuoteAware t).filterMap segToEntry) ∧
    (∀ t : List Char, joinSep ',' (splitQuoteAware t) = t) :=
  ⟨rfl, parseParameters_eq, joinSep_splitQuoteAware⟩

/-- C3: code bug.  On a type-7 entry with count 12 whose 12 value bytes are
the 8-byte prefix `ASCII\0\0\0` followed by `HEY!`, the code returns the
bytes `[0, 72, 69, 89]` (`\0HEY`) — it starts at prefix byte index 7 and
reads `count - 8` bytes, keeping the last prefix byte and dropping the final
text byte — whereas the claimed decoding (the value bytes with exactly the
first 8 removed, keeping all bytes through the last) is `[72, 69, 89, 33]`
(`HEY!`). -/
theorem c3_claim :
    readTagValue c3buf 0 0 true = .ok (some (.bytes [0, 72, 69, 89])) ∧
    (getStringFromDB c3buf 12 12).map (fun l => l.drop 8) =
      some [72, 69, 89, 33] ∧
    ([0, 72, 69, 89] : List Nat) ≠ [72, 69, 89, 33] :=
  ⟨rfl, rfl, by decide⟩

/-- C4: in-bounds access is not guaranteed by the segment-skipping loop: on
the malformed buffer `FF D8 FF E0` the loop dereferences the two length bytes
at offsets 4 and 5, past the end of the buffer — the modelled `RangeError`.
(The advance `2 + declared length` is at least 2, so the failure mode is the
out-of-bounds read arm of the claim's disjunction.) -/
theorem c4_claim :
    readEXIFMetadata c4buf = .error .outOfBounds := rfl

/-- C5: for every buffer whose first two bytes are not `FF D8`, EXIF
extraction returns the non-fatal `notJpeg` result (surfaced as "no metadata
found") and never a thrown error. -/
theorem c5_claim :
    ∀ (a c : Nat) (rest : List Nat), ¬ (a = 255 ∧ c = 216) →
      readEXIFMetadata (a :: c :: rest) = .ok .notJpeg := by
  intro a c rest h
  simp only [readEXIFMetadata, getUint8, List.getElem?_cons_zero,
    List.getElem?_cons_succ]
  rw [if_neg h]

/-- Witness for C5 at the two-byte buffer `00 00`. -/
theorem c5_witness : readEXIFMetadata [0, 0] = .ok .notJpeg :=
  c5_claim 0 0 [] (by decide)

/-- C6: when neither `parameters` nor `prompt` is usable (absent metadata
object, missing key, or empty string), the report is exactly the single
`Error` entry with the fixed message, for every behaviour of the two
parsers. -/
theorem c6_claim :
    ∀ (md : Option MetaObj) (forge comfy : String → Except Unit Report),
      (∀ m, md = some m → truthyS m.parameters = false) →
      (∀ m, md = some m → truthyS m.prompt = false) →
      parceMetadata md forge comfy = [("Error", noSectionsMsg)] := by
  intro md forge comfy h1 h2
  cases md with
  | none => rfl
  | some m =>
    have e1 := h1 m rfl
    have e2 := h2 m rfl
    simp [parceMetadata, e1, e2, objSet]

/-- Witness for C6 with no metadata object and throwing parsers. -/
theorem c6_witness :
    parceMetadata none (fun _ => .error ()) (fun _ => .error ()) =
      [("Error", noSectionsMsg)] :=
  c6_claim none _ _ (fun m h => absurd h (by simp))
    (fun m h => absurd h (by simp))

/-- C7 counterexample: the positive prompt `<x<a:b:c>` contains `<a:b:c>`,
but the greedy `/<[^>]+>/g` match starts at the earlier unclosed `<` and
collects the single span `<x<a:b:c>`, so the style-reference list does not
contain `<a:b:c>` verbatim. -/
theorem c7_counterexample :
    occursIn spanABC "<x<a:b:c>".data ∧
    (scanSpans "<x<a:b:c>".data).1 = ["<x<a:b:c>".data] ∧
    spanABC ∉ (scanSpans "<x<a:b:c>".data).1 :=
  ⟨⟨"<x".data, [], rfl⟩, rfl, by decide⟩

/-- C7 (amended): a span is matched greedily from a `<` to the first
following `>`, so it may itself contain `<`; the list contains `<a:b:c>`
verbatim whenever no unclosed `<` precedes it (here: when the prompt is
`pre ++ <a:b:c> ++ suf` with no `<` in `pre`), and the returned positive
prompt never contains `<a:b:c>` (all spans are removed). -/
theorem c7_claim :
    (∀ pre suf : List Char, '<' ∉ pre →
      spanABC ∈ (scanSpans (pre ++ spanABC ++ suf)).1) ∧
    (∀ s : List Char, ¬ occursIn spanABC (scanSpans s).2) :=
  ⟨spanABC_mem_scan, spanABC_not_in_clean⟩

/-- Witness for C7 (amended) with the empty prefix and suffix. -/
theorem c7_witness :
    spanABC ∈ (scanSpans (([] : List Char) ++ spanABC ++ [])).1 :=
  c7_claim.1 [] [] (by decide)

/-- C8 counterexample: the two-line annotation `a\nb` contains no
`Negative prompt:` marker; the negative prompt is indeed empty, but the
positive prompt is the trimmed prompt block `a`, not the trimmed input
`a\nb` — refuting "the parsed positive prompt equals the trimmed input" for
every marker-free annotation string. -/
theorem c8_counterexample :
    hasSub negMarker "a\nb".data = false ∧
    (splitNeg (promptBlock "a\nb".data)).2 = [] ∧
    (splitNeg (promptBlock "a\nb".data)).1 ≠ trimChars "a\nb".data :=
  ⟨by decide, rfl, by decide⟩

/-- C8 (amended): for every annotation without the `Negative prompt:` marker
the split yields an empty negative prompt and the trimmed prompt block (the
annotation minus its settings line) as the positive prompt; when the marker
occurs in the prompt block at first index `i`, the block decomposes as
`before ++ marker ++ after` there, with `before` (trimmed) the positive and
`after` (trimmed) the negative prompt. -/
theorem c8_claim :
    ∀ ann : List Char,
      (hasSub negMarker ann = false →
        splitNeg (promptBlock ann) = (trimChars (promptBlock ann), [])) ∧
      (∀ i, indexOfSub negMarker (promptBlock ann) = some i →
        promptBlock ann =
          (promptBlock ann).take i ++ negMarker ++
            (promptBlock ann).drop (i + negMarker.length) ∧
        splitNeg (promptBlock ann) =
          (trimChars ((promptBlock ann).take i),
           trimChars ((promptBlock ann).drop (i + negMarker.length)))) := by
  intro ann
  constructor
  · intro h
    have hnone := hasSub_promptBlock_of_hasSub negMarker ann h
    simp [splitNeg, hnone]
  · intro i hi
    refine ⟨(indexOfSub_decomp (promptBlock ann) negMarker i hi).symm, ?_⟩
    simp [splitNeg, hi]

/-- Witness for C8 (amended) at the marker-free annotation `x`. -/
theorem c8_witness :
    splitNeg (promptBlock "x".data) = (trimChars (promptBlock "x".data), []) :=
  (c8_claim "x".data).1 (by decide)

/-- C9 counterexample: a one-entry IFD whose tag id 0 is absent from the tag
table does contribute to the mapping — the entry is stored under the
JavaScript `undefined` key (modelled `none`), which is not a key from the tag
table, refuting "the mapping contains only keys from the tag table". -/
theorem c9_counterexample :
    readTags c9buf 0 0 tiffTagTable true =
      .ok [(none, some (TagValue.num 5))] ∧
    ∀ s : String, ((none : Option String), some (TagValue.num 5)).1 ≠ some s :=
  ⟨rfl, fun _ h => Option.noConfusion h⟩

/-- C9 (amended): unknown tag ids are not dropped — they are stored under the
single `undefined` key — but every *named* key of the mapping produced by
`readTags` does come from the supplied tag table. -/
theorem c9_claim :
    ∀ (b : List Nat) (tiffStart dirStart : Nat) (tbl : TagTable)
      (bigEnd : Bool) (res : TagObj),
      readTags b tiffStart dirStart tbl bigEnd = .ok res →
      ∀ p ∈ res, ∀ s, p.1 = some s → s ∈ tbl.map Prod.snd := by
  intro b t d tbl e res hok p hp s hs
  simp only [readTags] at hok
  cases h16 : getUint16 b d e with
  | none => rw [h16] at hok; exact absurd hok (by simp)
  | some entries =>
    rw [h16] at hok
    exact readTagsLoop_keys b t d tbl e (List.range entries) [] res
      (by simp) hok p hp s hs

/-- Witness for C9 (amended) at a one-entry IFD carrying the known tag
0x8769. -/
theorem c9_witness : "ExifIFDPointer" ∈ tiffTagTable.map Prod.snd :=
  c9_claim c9bufKnown 0 0 tiffTagTable true
    [(some "ExifIFDPointer", some (.num 8))] rfl
    (some "ExifIFDPointer", some (.num 8)) (by simp) "ExifIFDPointer" rfl

/-- C10: when both `parameters` and `prompt` are truthy and the Forge parse
succeeds with report `r`, `parceMetadata` returns exactly `r`, and the result
is independent of the Comfy parser (it is never consulted). -/
theorem c10_claim :
    ∀ (p pr : String) (forge comfy comfy' : String → Except Unit Report)
      (r : Report), p ≠ "" → pr ≠ "" → forge p = .ok r →
      parceMetadata (some ⟨some p, some pr⟩) forge comfy = r ∧
      parceMetadata (some ⟨some p, some pr⟩) forge comfy =
        parceMetadata (some ⟨some p, some pr⟩) forge comfy' := by
  intro p pr forge comfy comfy' r hp hpr hok
  have ht : truthyS (some p) = true := by
    simp only [truthyS, Bool.not_eq_true']
    exact Bool.eq_false_iff.mpr (fun he => hp ((String.isEmpty_iff p).mp he))
  constructor
  · simp [parceMetadata, ht, hok]
  · simp [parceMetadata, ht, hok]

/-- Witness for C10 with concrete truthy fields and a constant-report Forge
parse. -/
theorem c10_witness :
    parceMetadata (some ⟨some "x", some "y"⟩)
      (fun _ => .ok [("A", "B")]) (fun _ => .error ()) = [("A", "B")] :=
  (c10_claim "x" "y" (fun _ => .ok [("A", "B")]) (fun _ => .error ())
    (fun _ => .ok []) [("A", "B")] (by decide) (by decide) rfl).1
